import Mathlib

/-!
Verification development for the vyb-backend ranking/feed core.

The definitions below are a shallow embedding of the TypeScript source:

* `RankingService` (ranking.service.ts): the v1 fixed-weight scorer
  `calculateScore`, the rebuild pipeline `rebuildRankings`, the diversity
  sampler `applyDiversitySampling`, and the read path `getTopMarkets`.
* `RankingAlgoService` (ranking-algo.service.ts): the v2 configurable
  scorer `calculateRanking` with its normalizers, plus `updateWeights`
  and `validateWeights`.
* `FeedService.getNextMarkets` (feed.service.ts): cursor pagination.
* The Redis sorted-set store used by the rebuild and read paths.

JavaScript numbers are idealized as real numbers (`ℝ`); timestamps are
integers in milliseconds; weight configuration is embedded over `ℚ` so
that validation is decidable.  `null`/`undefined` inputs are `Option`s.
-/

/-! ## v1 scorer: `RankingService.calculateScore` -/

/-- A market as consumed by `RankingService.calculateScore`.  Fields that
the source reads through JavaScript falsy-coalescing (`lastChange24h || 0`,
`liquidity ? _ : 0`) or destructuring defaults (`trendScore = 0`) are
`Option`s, with `none` standing for `null`/`undefined`. -/
structure V1Market where
  volume : ℝ
  lastChange24h : Option ℝ
  endDate : ℤ
  liquidity : Option ℝ
  trendScore : Option ℝ

/-- Source line `Math.min(1, Math.log10(volume + 1) / 6)`. -/
noncomputable def normalizedVolume (volume : ℝ) : ℝ :=
  min 1 (Real.logb 10 (volume + 1) / 6)

/-- Source line `Math.min(1, Math.abs(lastChange24h || 0) / 20)`. -/
noncomputable def volatilityScore (lastChange24h : Option ℝ) : ℝ :=
  min 1 (|lastChange24h.getD 0| / 20)

/-- Source line
`(new Date(endDate).getTime() - Date.now()) / (1000 * 60 * 60 * 24)`:
days from the evaluation instant `now` to `endDate` (both in ms). -/
noncomputable def daysToEnd (now endDate : ℤ) : ℝ :=
  ((endDate - now : ℤ) : ℝ) / (1000 * 60 * 60 * 24)

/-- Source line `Math.exp(-daysToEnd / 30)`. -/
noncomputable def timeUrgencyV1 (now endDate : ℤ) : ℝ :=
  Real.exp (-daysToEnd now endDate / 30)

/-- Source lines
`liquidity ? 1 / (1 + Math.exp(-0.0005 * (liquidity - 10000))) : 0`.
A `0`, `null` or `undefined` liquidity is falsy and short-circuits to `0`
without evaluating the sigmoid. -/
noncomputable def liquidityScoreV1 (liquidity : Option ℝ) : ℝ :=
  match liquidity with
  | none => 0
  | some l => if l = 0 then 0 else 1 / (1 + Real.exp (-0.0005 * (l - 10000)))

/-- Source line `Math.max(0, Math.min(1, rawScore))`. -/
noncomputable def clamp01 (x : ℝ) : ℝ := max 0 (min 1 x)

/-- The `RankingService.calculateScore` (v1 deterministic algorithm):
`0.35*volumeNorm + 0.25*volatility + 0.20*timeUrgency + 0.15*liquidity +
0.05*trendScore`, clamped to `[0,1]`.  The source reads the clock via
`Date.now()`; that reading is the explicit `now` argument here. -/
noncomputable def calculateScore (now : ℤ) (market : V1Market) : ℝ :=
  clamp01
    (0.35 * normalizedVolume market.volume +
     0.25 * volatilityScore market.lastChange24h +
     0.20 * timeUrgencyV1 now market.endDate +
     0.15 * liquidityScoreV1 market.liquidity +
     0.05 * market.trendScore.getD 0)

/-! ## v2 scorer: `RankingAlgoService` -/

/-- The `MarketData` from ranking-algo.service.ts. -/
structure MarketData where
  liquidity : ℝ
  volume24h : ℝ
  priceChange24 : ℝ
  mentionScore : ℝ
  endDate : ℤ

/-- The `RankingWeights` from ranking-algo.service.ts.  The configured decimal
weights are embedded exactly as rationals. -/
structure RankingWeights where
  w1 : ℚ
  w2 : ℚ
  w3 : ℚ
  w4 : ℚ
  w5 : ℚ
deriving DecidableEq

/-- The default weights `0.28, 0.22, 0.16, 0.24, 0.10` read from config. -/
def defaultWeights : RankingWeights := ⟨0.28, 0.22, 0.16, 0.24, 0.10⟩

/-- The `RankingResult` of the v2 scorer. -/
structure RankingResult where
  confidence : ℝ
  trendScore : ℝ

/-- The `RankingAlgoService.normalizeLiquidity`:
`if (liquidity <= 0) return 0; return Math.min(1, Math.log10(liquidity + 1) / 6)`. -/
noncomputable def normalizeLiquidity (liquidity : ℝ) : ℝ :=
  if liquidity ≤ 0 then 0 else min 1 (Real.logb 10 (liquidity + 1) / 6)

/-- The `RankingAlgoService.normalizeVolume`:
`if (volume <= 0) return 0; return Math.min(1, Math.log10(volume + 1) / 6)`. -/
noncomputable def normalizeVolume (volume : ℝ) : ℝ :=
  if volume ≤ 0 then 0 else min 1 (Real.logb 10 (volume + 1) / 6)

/-- The `RankingAlgoService.normalizeDrift`: `Math.min(1, Math.abs(priceChange) / 20)`. -/
noncomputable def normalizeDrift (priceChange : ℝ) : ℝ :=
  min 1 (|priceChange| / 20)

/-- Hours from `now` to `endDate` (both in ms), as computed inside
`RankingAlgoService.calculateTimeDecay`. -/
noncomputable def hoursToEnd (now endDate : ℤ) : ℝ :=
  ((endDate - now : ℤ) : ℝ) / (1000 * 60 * 60)

/-- The `RankingAlgoService.calculateTimeDecay`:
`if (hoursToEnd <= 0) return 0; return Math.exp(-(hoursToEnd / 720))`. -/
noncomputable def calculateTimeDecay (now endDate : ℤ) : ℝ :=
  if hoursToEnd now endDate ≤ 0 then 0
  else Real.exp (-(hoursToEnd now endDate / 720))

/-- The `RankingAlgoService.normalizeSocial`: `Math.min(1, mentionScore / 100)`. -/
noncomputable def normalizeSocial (mentionScore : ℝ) : ℝ :=
  min 1 (mentionScore / 100)

/-- The `RankingAlgoService.clamp`: `Math.min(Math.max(value, min), max)`. -/
noncomputable def clamp (value lo hi : ℝ) : ℝ :=
  min (max value lo) hi

/-- The `RankingAlgoService.calculateRanking`: the configurable five-weight v2
scorer.  `this.weights` is the explicit `w` argument; the clock read inside
`calculateTimeDecay` is the explicit `now` argument. -/
noncomputable def calculateRanking (w : RankingWeights) (now : ℤ)
    (market : MarketData) : RankingResult :=
  { confidence :=
      clamp
        ((w.w1 : ℝ) * normalizeLiquidity market.liquidity +
         (w.w2 : ℝ) * normalizeVolume market.volume24h +
         (w.w3 : ℝ) * normalizeDrift market.priceChange24 +
         (w.w4 : ℝ) * normalizeSocial market.mentionScore +
         (w.w5 : ℝ) * calculateTimeDecay now market.endDate) 0 1
    trendScore :=
      clamp
        (0.5 * normalizeDrift market.priceChange24 +
         0.5 * normalizeSocial market.mentionScore) 0 1 }

/-- The `Partial<RankingWeights>` as received by `updateWeights`. -/
structure PartialWeights where
  w1 : Option ℚ
  w2 : Option ℚ
  w3 : Option ℚ
  w4 : Option ℚ
  w5 : Option ℚ

/-- The `RankingAlgoService.updateWeights`: each field is overwritten by the
incoming value when present (`??` keeps the old value only for
`null`/`undefined`).  No validation is performed. -/
def updateWeights (current : RankingWeights) (newWeights : PartialWeights) :
    RankingWeights :=
  { w1 := newWeights.w1.getD current.w1
    w2 := newWeights.w2.getD current.w2
    w3 := newWeights.w3.getD current.w3
    w4 := newWeights.w4.getD current.w4
    w5 := newWeights.w5.getD current.w5 }

/-- The `RankingAlgoService.validateWeights`:
`Math.abs(sum - 1.0) < 0.001`. -/
def validateWeights (w : RankingWeights) : Bool :=
  |w.w1 + w.w2 + w.w3 + w.w4 + w.w5 - 1| < 0.001

/-! ## Diversity sampler: `RankingService.applyDiversitySampling`

The sampler walks a list of markets, accepting a market when its primary
tag is unused or fewer than 5 markets have been accepted; every 5 accepted
markets the used-tag set is cleared. -/

/-- A market as seen by the diversity sampler: its id and tag list. -/
structure DMarket where
  id : ℕ
  tags : List String
deriving DecidableEq

/-- Source line `market.tags[0] || 'general'`: the first tag, with the
empty string (falsy) and a missing first tag both coalescing to
`"general"`. -/
def primaryTag (m : DMarket) : String :=
  match m.tags with
  | [] => "general"
  | t :: _ => if t = "" then "general" else t

/-- The loop body of `applyDiversitySampling`, as a recursion over the
remaining input.  `sampled` accumulates accepted markets in walk order;
`used` is the rolling used-tag set (a list read only through membership).
On acceptance the tag is added and, when the accepted count reaches a
multiple of 5, the set is cleared — exactly the source order
(push, add, `if length % 5 === 0` clear). -/
def sampleGo : List DMarket → List DMarket → List String → List DMarket
  | [], sampled, _ => sampled
  | m :: rest, sampled, used =>
    if primaryTag m ∉ used ∨ sampled.length < 5 then
      sampleGo rest (sampled ++ [m])
        (if (sampled.length + 1) % 5 = 0 then [] else primaryTag m :: used)
    else
      sampleGo rest sampled used

/-- The `RankingService.applyDiversitySampling` restricted to its pure core:
the accept/reject walk over the input list (the surrounding Redis reads
and writes are modelled separately). -/
def applyDiversitySampling (markets : List DMarket) : List DMarket :=
  sampleGo markets [] []

/-! ## Redis sorted-set model

`RedisService` wraps a Redis client; a sorted set is a finite map from
member to score, read back ordered by `(score, member)` — ascending for
`zrange`, descending for `zrevrange`.  The rebuild and sampler touch two
keys per segment: `feed:top:` and `feed:diversity:`. -/

/-- The two per-segment cache keys. -/
inductive RKey where
  | top
  | diversity
deriving DecidableEq

/-- One Redis command issued by the rebuild/sampler write paths. -/
inductive RedisOp where
  | del (k : RKey)
  | zadd (k : RKey) (member : ℕ) (score : ℚ)
  | expire (k : RKey) (ttl : ℕ)
deriving DecidableEq

/-- Redis state for one segment: the two sorted sets, as association
lists from member to score. -/
structure RedisSt where
  top : List (ℕ × ℚ)
  diversity : List (ℕ × ℚ)
deriving DecidableEq

/-- The `zadd` upsert semantics on an association list. -/
def zaddEntry (entries : List (ℕ × ℚ)) (member : ℕ) (score : ℚ) :
    List (ℕ × ℚ) :=
  (member, score) :: entries.filter (fun p => p.1 ≠ member)

/-- Apply one Redis command.  `expire` sets a TTL and does not change
membership, so it is the identity on this abstraction. -/
def applyOp (st : RedisSt) : RedisOp → RedisSt
  | .del .top => { st with top := [] }
  | .del .diversity => { st with diversity := [] }
  | .zadd .top m s => { st with top := zaddEntry st.top m s }
  | .zadd .diversity m s => { st with diversity := zaddEntry st.diversity m s }
  | .expire _ _ => st

/-- Apply a command sequence left to right. -/
def applyOps (st : RedisSt) (ops : List RedisOp) : RedisSt :=
  ops.foldl applyOp st

/-- Ascending `(score, member)` order used by `zrange`. -/
def zleRel (a b : ℕ × ℚ) : Prop :=
  a.2 < b.2 ∨ (a.2 = b.2 ∧ a.1 ≤ b.1)

instance : DecidableRel zleRel := fun a b => by
  unfold zleRel; infer_instance

/-- Descending `(score, member)` order used by `zrevrange`. -/
def zgeRel (a b : ℕ × ℚ) : Prop :=
  b.2 < a.2 ∨ (a.2 = b.2 ∧ b.1 ≤ a.1)

instance : DecidableRel zgeRel := fun a b => by
  unfold zgeRel; infer_instance

/-- The `zrange key start stop`: members ordered ascending, positions
`start..stop` inclusive. -/
def zrangeList (entries : List (ℕ × ℚ)) (start stop : ℕ) : List ℕ :=
  (((List.insertionSort zleRel entries).drop start).take (stop - start + 1)).map
    Prod.fst

/-- The `zrevrange key start stop`: members ordered descending, positions
`start..stop` inclusive. -/
def zrevrangeList (entries : List (ℕ × ℚ)) (start stop : ℕ) : List ℕ :=
  (((List.insertionSort zgeRel entries).drop start).take (stop - start + 1)).map
    Prod.fst

/-- The `RankingService.getTopMarkets`: prefer the diversity cache
(`exists` then `zrange 0 (limit-1)`, used when non-empty), falling back
to `zrevrange` on the top cache.  An empty Redis sorted set has no key,
so `exists` is non-emptiness of the entry list. -/
def getTopMarkets (st : RedisSt) (limit : ℕ) : List ℕ :=
  if st.diversity.length ≠ 0 then
    let marketIds := zrangeList st.diversity 0 (limit - 1)
    if marketIds ≠ [] then marketIds
    else zrevrangeList st.top 0 (limit - 1)
  else zrevrangeList st.top 0 (limit - 1)

/-! ## Rebuild pipeline: `RankingService.rebuildRankings`

After scoring, the source (a) persists every confidence inside one
`executeTransaction` — a single all-or-nothing transaction whose failure
is caught, logged and rethrown, so one failing item update aborts the
whole rebuild — and (b) on success sorts by confidence descending,
truncates to `topK = 1000`, and writes the top cache as the command
sequence `DEL`, one `ZADD` per market, `EXPIRE 3600`. -/

/-- The `RankingResult` of `rebuildRankings` (counts; renamed to avoid the
clash with the v2 scorer's interface of the same name). -/
structure RankingRebuildResult where
  totalMarkets : ℕ
  topMarkets : ℕ
deriving DecidableEq

/-- Sort `(id, confidence)` pairs by confidence descending — the source's
`sort((a, b) => b.confidence - a.confidence)`. -/
def sortByConfidenceDesc (scored : List (ℕ × ℚ)) : List (ℕ × ℚ) :=
  List.insertionSort (fun a b => b.2 ≤ a.2) scored

/-- The Redis command sequence the rebuild issues for the top cache:
`DEL`, then one `ZADD` per top market in sorted order, then
`EXPIRE 3600`. -/
def rebuildRedisOps (topMarkets : List (ℕ × ℚ)) : List RedisOp :=
  RedisOp.del RKey.top ::
    (topMarkets.map (fun p => RedisOp.zadd RKey.top p.1 p.2) ++
      [RedisOp.expire RKey.top 3600])

/-- The `RankingService.rebuildRankings` after the scoring step: `scored` is
the `(id, confidence)` list, `persistOk` tells whether the per-item
`prisma.marketItem.update` succeeds.  The updates run inside one
`executeTransaction`, so the first failing item makes the transaction
throw; the `catch` block rethrows (modelled as `Except.error` carrying the
failing id) and no cache commands are issued.  On success the result
counts and the issued command sequence are returned. -/
def rebuildRankings (scored : List (ℕ × ℚ)) (persistOk : ℕ → Bool) :
    Except ℕ (RankingRebuildResult × List RedisOp) :=
  match scored.find? (fun p => !persistOk p.1) with
  | some p => Except.error p.1
  | none =>
    let topMarkets := (sortByConfidenceDesc scored).take 1000
    Except.ok (⟨scored.length, topMarkets.length⟩, rebuildRedisOps topMarkets)

/-! ## Feed pagination: `FeedService.getNextMarkets`

The feed query selects active markets (`endDate > now`), optionally
filtered by tags (`hasSome`), applies the keyset cursor condition
`updatedAt < c.date OR (updatedAt = c.date AND id < c.id)`, orders by
`(updatedAt desc, id desc)`, and takes `limit + 1` rows to detect
`hasMore`.  The cursor string `"<iso-date>,<id>"` round-trips the
`(updatedAt, id)` pair exactly (millisecond timestamps, comma-free ids),
so it is modelled as that pair. -/

/-- A market row as read by the feed query. -/
structure FeedMarket where
  id : ℕ
  updatedAt : ℤ
  endDate : ℤ
  tags : List String
deriving DecidableEq

/-- The pagination key of a market: `(updatedAt, id)`. -/
def feedKey (m : FeedMarket) : ℤ × ℕ :=
  (m.updatedAt, m.id)

/-- Strict lexicographic order on pagination keys, as in the cursor
`where` clause. -/
def keyLt (x y : ℤ × ℕ) : Prop :=
  x.1 < y.1 ∨ (x.1 = y.1 ∧ x.2 < y.2)

instance (x y : ℤ × ℕ) : Decidable (keyLt x y) := by
  unfold keyLt; infer_instance

/-- The `orderBy [updatedAt desc, id desc]` relation: `a` comes no later
than `b` when `a`'s key is not below `b`'s. -/
def feedGe (a b : FeedMarket) : Prop :=
  ¬ keyLt (feedKey a) (feedKey b)

instance : DecidableRel feedGe := fun a b => by
  unfold feedGe; infer_instance

/-- The `endDate: { gt: new Date() }` plus the optional
`tags: { hasSome: tags }` filter. -/
def eligibleFilter (now : ℤ) (tags : Option (List String)) (m : FeedMarket) :
    Bool :=
  decide (now < m.endDate) &&
    match tags with
    | none => true
    | some ts => ts.any (fun t => m.tags.contains t)

/-- The cursor condition: with no cursor every row matches; with a cursor
only rows strictly below the cursor key match. -/
def matchesCursor (cursor : Option (ℤ × ℕ)) (m : FeedMarket) : Bool :=
  match cursor with
  | none => true
  | some c => decide (keyLt (feedKey m) c)

/-- Rows in `(updatedAt desc, id desc)` order. -/
def sortFeedDesc (l : List FeedMarket) : List FeedMarket :=
  List.insertionSort feedGe l

/-- The `FeedResponseDto`: the page items, the `"<date>,<id>"` cursor as its
decoded pair, and `hasMore`. -/
structure FeedPage where
  items : List FeedMarket
  nextCursor : Option (ℤ × ℕ)
  hasMore : Bool
deriving DecidableEq

/-- The `FeedService.getNextMarkets` on a fixed snapshot: filter by activity,
tags and cursor, order by `(updatedAt desc, id desc)`, take `limit + 1`
rows, report `hasMore`, return at most `limit` rows, and derive the next
cursor from the last returned row when more rows exist. -/
def getNextMarkets (snapshot : List FeedMarket) (now : ℤ)
    (tags : Option (List String)) (cursor : Option (ℤ × ℕ)) (limit : ℕ) :
    FeedPage :=
  let filtered := snapshot.filter
    (fun m => eligibleFilter now tags m && matchesCursor cursor m)
  let markets := (sortFeedDesc filtered).take (limit + 1)
  let hasMore := decide (limit < markets.length)
  let resultMarkets := if hasMore then markets.take limit else markets
  let nextCursor :=
    if hasMore && !resultMarkets.isEmpty then
      resultMarkets.getLast?.map feedKey
    else none
  ⟨resultMarkets, nextCursor, hasMore⟩

/-- Drive `getNextMarkets` to exhaustion: start from a cursor, request a
page with the call-indexed limit, and continue with the returned cursor
while `hasMore` holds, concatenating the returned items.  `fuel` bounds
the recursion; any fuel above the snapshot size is enough. -/
def collectPages (snapshot : List FeedMarket) (now : ℤ)
    (tags : Option (List String)) (limits : ℕ → ℕ) :
    ℕ → Option (ℤ × ℕ) → ℕ → List FeedMarket
  | 0, _, _ => []
  | fuel + 1, cursor, k =>
    let page := getNextMarkets snapshot now tags cursor (limits k)
    match page.hasMore, page.nextCursor with
    | true, some c =>
      page.items ++ collectPages snapshot now tags limits fuel (some c) (k + 1)
    | _, _ => page.items

/-- Strict descending order on rows: `a`'s key is strictly above `b`'s. -/
def feedGt (a b : FeedMarket) : Prop :=
  keyLt (feedKey b) (feedKey a)

/-! ## Derived notions used by the sampler analysis -/

/-- The current (possibly partial) block of 5 in the accepted list: the
accepted markets after the last multiple-of-5 boundary. -/
def curBlock (sampled : List DMarket) : List DMarket :=
  sampled.drop (5 * (sampled.length / 5))

/-- The sampler's used-tag set holds exactly the primary tags of the
current partial block. -/
def usedMatches (sampled : List DMarket) (used : List String) : Prop :=
  ∀ t, t ∈ used ↔ t ∈ (curBlock sampled).map primaryTag

/-- Every aligned block of 5 accepted markets after the first has
pairwise-distinct primary tags. -/
def blocksOk (sampled : List DMarket) : Prop :=
  ∀ k, 1 ≤ k → (((sampled.drop (5 * k)).take 5).map primaryTag).Nodup

/-- The primary tag at a position of the sampled output. -/
def tagAt (l : List DMarket) (i : ℕ) : String :=
  primaryTag (l.getD i ⟨0, []⟩)

/-- Sliding-window diversity as the claim states it: within any window of
5 consecutive accepted items (necessarily not the first window), two
items both accepted after the first 5 never share a primary tag.
Positions below 5 are the items accepted while fewer than 5 had been
accepted, which the claim exempts. -/
def noDupWindow (l : List DMarket) : Prop :=
  ∀ q < l.length, ∀ p < q, 5 ≤ p → q ≤ p + 4 → tagAt l p ≠ tagAt l q

instance (l : List DMarket) : Decidable (noDupWindow l) := by
  unfold noDupWindow
  infer_instance

/-- Concrete sampler input: five markets tagged `a`, then `b c d e f`,
then a second `f`. -/
def sampleInput11 : List DMarket :=
  [⟨0, ["a"]⟩, ⟨1, ["a"]⟩, ⟨2, ["a"]⟩, ⟨3, ["a"]⟩, ⟨4, ["a"]⟩,
   ⟨5, ["b"]⟩, ⟨6, ["c"]⟩, ⟨7, ["d"]⟩, ⟨8, ["e"]⟩, ⟨9, ["f"]⟩, ⟨10, ["f"]⟩]

/-! ## Scoring facts -/

/-- The sigmoid branch of the v1 liquidity term is continuous. -/
lemma sigmoid_continuous :
    Continuous fun l : ℝ => 1 / (1 + Real.exp (-0.0005 * (l - 10000))) := by
  have h1 : Continuous fun l : ℝ => 1 + Real.exp (-0.0005 * (l - 10000)) := by
    continuity
  exact continuous_const.div h1 fun l => by positivity

/-- Claim C10: in the v1 fixed scoring mode, an item whose liquidity is
`0`, `null` or `undefined` gets liquidity term exactly `0`, not the
(positive) sigmoid value at liquidity `0`, so the liquidity term is
discontinuous at zero liquidity. -/
theorem liquidityScoreV1_falsy_zero :
    liquidityScoreV1 (some 0) = 0 ∧
    liquidityScoreV1 none = 0 ∧
    0 < 1 / (1 + Real.exp (-0.0005 * ((0 : ℝ) - 10000))) ∧
    liquidityScoreV1 (some 0) ≠ 1 / (1 + Real.exp (-0.0005 * ((0 : ℝ) - 10000))) ∧
    ¬ ContinuousAt (fun l : ℝ => liquidityScoreV1 (some l)) 0 := by
  have hpos : 0 < 1 / (1 + Real.exp (-0.0005 * ((0 : ℝ) - 10000))) := by positivity
  have h0 : liquidityScoreV1 (some 0) = 0 := by simp [liquidityScoreV1]
  refine ⟨h0, rfl, hpos, by rw [h0]; exact fun h => absurd h.symm (ne_of_gt hpos), ?_⟩
  intro hc
  have hfun : (fun l : ℝ => liquidityScoreV1 (some l))
      =ᶠ[nhdsWithin 0 {(0 : ℝ)}ᶜ]
      fun l => 1 / (1 + Real.exp (-0.0005 * (l - 10000))) := by
    filter_upwards [self_mem_nhdsWithin] with l hl
    simp only [Set.mem_compl_iff, Set.mem_singleton_iff] at hl
    simp only [liquidityScoreV1]
    rw [if_neg hl]
  have ht1 : Filter.Tendsto (fun l : ℝ => liquidityScoreV1 (some l))
      (nhdsWithin 0 {(0 : ℝ)}ᶜ)
      (nhds (1 / (1 + Real.exp (-0.0005 * ((0 : ℝ) - 10000))))) := by
    refine Filter.Tendsto.congr' hfun.symm ?_
    exact (sigmoid_continuous.continuousAt.tendsto).mono_left nhdsWithin_le_nhds
  have ht2 : Filter.Tendsto (fun l : ℝ => liquidityScoreV1 (some l))
      (nhdsWithin 0 {(0 : ℝ)}ᶜ) (nhds 0) := by
    have := hc.tendsto
    rw [h0] at this
    exact this.mono_left nhdsWithin_le_nhds
  haveI hne : (nhdsWithin (0 : ℝ) {(0 : ℝ)}ᶜ).NeBot := inferInstance
  exact absurd (tendsto_nhds_unique ht2 ht1) (ne_of_lt hpos)

/-- The `daysToEnd` evaluated at a whole number of days. -/
lemma daysToEnd_mul (now : ℤ) (d : ℤ) :
    daysToEnd now (now + d * 86400000) = (d : ℝ) := by
  unfold daysToEnd
  have h : (now + d * 86400000 - now : ℤ) = d * 86400000 := by ring
  rw [h]
  push_cast
  rw [mul_div_assoc]
  norm_num

/-- The `daysToEnd` is monotone in the end date. -/
lemma daysToEnd_mono (now : ℤ) {e e' : ℤ} (h : e ≤ e') :
    daysToEnd now e ≤ daysToEnd now e' := by
  unfold daysToEnd
  have : ((e - now : ℤ) : ℝ) ≤ ((e' - now : ℤ) : ℝ) := by
    exact_mod_cast sub_le_sub_right h now
  linarith

/-- The `daysToEnd` is nonpositive exactly when the end date has passed. -/
lemma daysToEnd_nonpos (now : ℤ) {e : ℤ} (h : e ≤ now) :
    daysToEnd now e ≤ 0 := by
  unfold daysToEnd
  apply div_nonpos_of_nonpos_of_nonneg
  · exact_mod_cast sub_nonpos_of_le h
  · norm_num

/-- The `hoursToEnd` is nonpositive exactly when the end date has passed. -/
lemma hoursToEnd_nonpos (now : ℤ) {e : ℤ} (h : e ≤ now) :
    hoursToEnd now e ≤ 0 := by
  unfold hoursToEnd
  apply div_nonpos_of_nonpos_of_nonneg
  · exact_mod_cast sub_nonpos_of_le h
  · norm_num

/-- Claim C3, counterexample: in v1, an item that ended 30 days ago has
`timeUrgency = exp 1 > 1`, strictly above the value `exp (-1/30)` of an
otherwise-identical item ending in 1 day — the expired item does NOT
evaluate at or below any not-yet-ended item's value. -/
theorem timeUrgencyV1_expired_above_unexpired :
    timeUrgencyV1 0 86400000 < timeUrgencyV1 0 (-2592000000) ∧
    1 < timeUrgencyV1 0 (-2592000000) := by
  have h1 : timeUrgencyV1 0 (-2592000000) = Real.exp 1 := by
    unfold timeUrgencyV1
    have : daysToEnd 0 (-2592000000) = ((-30 : ℤ) : ℝ) := by
      have := daysToEnd_mul 0 (-30)
      norm_num at this ⊢
      convert this using 2
    rw [this]
    norm_num
  have h2 : timeUrgencyV1 0 86400000 = Real.exp (-(1 / 30)) := by
    unfold timeUrgencyV1
    have : daysToEnd 0 86400000 = ((1 : ℤ) : ℝ) := by
      have := daysToEnd_mul 0 1
      norm_num at this ⊢
      convert this using 2
    rw [this]
    norm_num
  rw [h1, h2]
  constructor
  · exact Real.exp_lt_exp.mpr (by norm_num)
  · exact Real.one_lt_exp_iff.mpr (by norm_num)

/-- Claim C3, amended: in v1 an already-ended item's `timeUrgency`
`exp(-daysToEnd/30)` is at least `1` — the maximum end of the decay
curve, at or above the value of every not-yet-ended item (there is no
special-cased zero); in the v2 hours-based variant an expired item's
time-decay term is exactly `0`. -/
theorem timeUrgency_expired_behaviour :
    (∀ now e : ℤ, e ≤ now → 1 ≤ timeUrgencyV1 now e) ∧
    (∀ now e e' : ℤ, e ≤ now → now ≤ e' →
      timeUrgencyV1 now e' ≤ timeUrgencyV1 now e) ∧
    (∀ now e : ℤ, e ≤ now → calculateTimeDecay now e = 0) := by
  refine ⟨?_, ?_, ?_⟩
  · intro now e h
    unfold timeUrgencyV1
    rw [Real.one_le_exp_iff]
    have := daysToEnd_nonpos now h
    linarith
  · intro now e e' h h'
    unfold timeUrgencyV1
    apply Real.exp_le_exp.mpr
    have := daysToEnd_mono now (le_trans h h')
    linarith
  · intro now e h
    unfold calculateTimeDecay
    rw [if_pos (hoursToEnd_nonpos now h)]

/-- Witness for the amended C3 theorem at a concrete expired item. -/
theorem timeUrgency_expired_behaviour_witness :
    1 ≤ timeUrgencyV1 0 (-2592000000) ∧
    timeUrgencyV1 0 2592000000 ≤ timeUrgencyV1 0 (-2592000000) ∧
    calculateTimeDecay 0 (-3600000) = 0 :=
  ⟨timeUrgency_expired_behaviour.1 0 (-2592000000) (by norm_num),
   timeUrgency_expired_behaviour.2.1 0 (-2592000000) 2592000000 (by norm_num)
     (by norm_num),
   timeUrgency_expired_behaviour.2.2 0 (-3600000) (by norm_num)⟩

/-- Bounds on `log10 10001` used to pin the v2 liquidity norm strictly
between `1/2` and `1`. -/
lemma logb_10001_bounds : 3 < Real.logb 10 10001 ∧ Real.logb 10 10001 < 6 := by
  have hb : (1 : ℝ) < 10 := by norm_num
  have hx : (0 : ℝ) < 10001 := by norm_num
  constructor
  · rw [Real.lt_logb_iff_rpow_lt hb hx]
    rw [show (3 : ℝ) = ((3 : ℕ) : ℝ) by norm_num, Real.rpow_natCast]
    norm_num
  · rw [Real.logb_lt_iff_lt_rpow hb hx]
    rw [show (6 : ℝ) = ((6 : ℕ) : ℝ) by norm_num, Real.rpow_natCast]
    norm_num

/-- The v2 liquidity norm at liquidity `10000`. -/
lemma normalizeLiquidity_10000 :
    normalizeLiquidity 10000 = Real.logb 10 10001 / 6 ∧
    1 / 2 < normalizeLiquidity 10000 ∧ normalizeLiquidity 10000 < 1 := by
  obtain ⟨hlo, hhi⟩ := logb_10001_bounds
  have heq : normalizeLiquidity 10000 = Real.logb 10 10001 / 6 := by
    unfold normalizeLiquidity
    rw [if_neg (by norm_num)]
    rw [show ((10000 : ℝ) + 1) = 10001 by norm_num]
    exact min_eq_right (by linarith)
  refine ⟨heq, ?_, ?_⟩ <;> rw [heq] <;> linarith

/-- Claim C4, counterexample: in the v2 mode the liquidity term at
liquidity `10000` is `log10(10001)/6 > 1/2`, strictly above the sigmoid
value `1/2`; consequently the v2 confidence of a market whose other
signals vanish differs from the value the sigmoid formula would give. -/
theorem normalizeLiquidity_not_sigmoid :
    1 / (1 + Real.exp (-0.0005 * ((10000 : ℝ) - 10000))) < normalizeLiquidity 10000 ∧
    (calculateRanking defaultWeights 0 ⟨10000, 0, 0, 0, 0⟩).confidence ≠
      (0.28 : ℝ) * (1 / (1 + Real.exp (-0.0005 * ((10000 : ℝ) - 10000)))) := by
  obtain ⟨heq, hlo, hhi⟩ := normalizeLiquidity_10000
  have hsig : 1 / (1 + Real.exp (-0.0005 * ((10000 : ℝ) - 10000))) = 1 / 2 := by
    rw [show (-0.0005 * ((10000 : ℝ) - 10000)) = 0 by norm_num, Real.exp_zero]
    norm_num
  have hconf : (calculateRanking defaultWeights 0 ⟨10000, 0, 0, 0, 0⟩).confidence =
      0.28 * normalizeLiquidity 10000 := by
    show clamp _ 0 1 = _
    have h2 : normalizeVolume 0 = 0 := by
      unfold normalizeVolume
      rw [if_pos le_rfl]
    have h3 : normalizeDrift 0 = 0 := by
      unfold normalizeDrift
      simp
    have h4 : normalizeSocial 0 = 0 := by
      unfold normalizeSocial
      norm_num
    have h5 : calculateTimeDecay 0 0 = 0 := by
      unfold calculateTimeDecay
      rw [if_pos (hoursToEnd_nonpos 0 le_rfl)]
    have hcast : ((defaultWeights.w1 : ℚ) : ℝ) = 0.28 := by
      norm_num [defaultWeights]
    have hc2 : ((defaultWeights.w2 : ℚ) : ℝ) = 0.22 := by
      norm_num [defaultWeights]
    have hc3 : ((defaultWeights.w3 : ℚ) : ℝ) = 0.16 := by
      norm_num [defaultWeights]
    have hc4 : ((defaultWeights.w4 : ℚ) : ℝ) = 0.24 := by
      norm_num [defaultWeights]
    have hc5 : ((defaultWeights.w5 : ℚ) : ℝ) = 0.10 := by
      norm_num [defaultWeights]
    rw [hcast, hc2, hc3, hc4, hc5, h2, h3, h4, h5]
    unfold clamp
    rw [max_eq_left (by nlinarith), min_eq_left (by nlinarith)]
    ring
  rw [hsig] at *
  constructor
  · linarith
  · rw [hconf]
    exact ne_of_gt (by nlinarith)

/-- Claim C4, amended: in the configurable five-weight v2 mode the term
multiplied by `w1` is the log-scale norm `min(1, log10(liquidity+1)/6)`
(zero at nonpositive liquidity), not the sigmoid; the sigmoid
`1/(1+exp(-0.0005(liquidity-10000)))` is the v1 fixed mode's liquidity
term for truthy liquidity. -/
theorem liquidity_term_by_mode :
    (∀ l : ℝ, 0 < l → normalizeLiquidity l = min 1 (Real.logb 10 (l + 1) / 6)) ∧
    (∀ l : ℝ, l ≠ 0 → liquidityScoreV1 (some l) =
      1 / (1 + Real.exp (-0.0005 * (l - 10000)))) := by
  constructor
  · intro l hl
    unfold normalizeLiquidity
    rw [if_neg (not_le.mpr hl)]
  · intro l hl
    simp only [liquidityScoreV1]
    rw [if_neg hl]

/-- Witness for the amended C4 theorem at liquidity `10000`. -/
theorem liquidity_term_by_mode_witness :
    normalizeLiquidity 10000 = min 1 (Real.logb 10 ((10000 : ℝ) + 1) / 6) ∧
    liquidityScoreV1 (some 10000) =
      1 / (1 + Real.exp (-0.0005 * ((10000 : ℝ) - 10000))) :=
  ⟨liquidity_term_by_mode.1 10000 (by norm_num),
   liquidity_term_by_mode.2 10000 (by norm_num)⟩

/-- The shared log-scale norm is monotone above `-1`. -/
lemma logNorm_mono {v v' : ℝ} (h0 : -1 < v) (h : v ≤ v') :
    min 1 (Real.logb 10 (v + 1) / 6) ≤ min 1 (Real.logb 10 (v' + 1) / 6) := by
  have hlog := Real.logb_le_logb_of_le (by norm_num : (1 : ℝ) < 10)
    (by linarith : (0 : ℝ) < v + 1) (by linarith : v + 1 ≤ v' + 1)
  exact min_le_min le_rfl (by linarith)

/-- The `normalizedVolume` (v1) is monotone on nonnegative volumes. -/
lemma normalizedVolume_mono {v v' : ℝ} (h0 : 0 ≤ v) (h : v ≤ v') :
    normalizedVolume v ≤ normalizedVolume v' := by
  unfold normalizedVolume
  exact logNorm_mono (by linarith) h

/-- The `normalizeVolume` (v2) is monotone everywhere. -/
lemma normalizeVolume_mono {v v' : ℝ} (h : v ≤ v') :
    normalizeVolume v ≤ normalizeVolume v' := by
  unfold normalizeVolume
  by_cases h' : v' ≤ 0
  · rw [if_pos h', if_pos (le_trans h h')]
  · rw [if_neg h']
    by_cases hv : v ≤ 0
    · rw [if_pos hv]
      have hlog := Real.logb_nonneg (by norm_num : (1 : ℝ) < 10)
        (by linarith : (1 : ℝ) ≤ v' + 1)
      exact le_min (by norm_num) (by linarith)
    · rw [if_neg hv]
      exact logNorm_mono (by linarith) h

/-- The `clamp01` is monotone. -/
lemma clamp01_mono {x y : ℝ} (h : x ≤ y) : clamp01 x ≤ clamp01 y :=
  max_le_max le_rfl (min_le_min le_rfl h)

/-- The `clamp` is monotone in its value argument. -/
lemma clamp_mono {x y lo hi : ℝ} (h : x ≤ y) : clamp x lo hi ≤ clamp y lo hi :=
  min_le_min (max_le_max h le_rfl) le_rfl

/-- The `hoursToEnd` is monotone in the end date. -/
lemma hoursToEnd_mono (now : ℤ) {e e' : ℤ} (h : e ≤ e') :
    hoursToEnd now e ≤ hoursToEnd now e' := by
  unfold hoursToEnd
  have : ((e - now : ℤ) : ℝ) ≤ ((e' - now : ℤ) : ℝ) := by
    exact_mod_cast sub_le_sub_right h now
  linarith

/-- The `hoursToEnd` is positive for a strictly future end date. -/
lemma hoursToEnd_pos (now : ℤ) {e : ℤ} (h : now < e) :
    0 < hoursToEnd now e := by
  unfold hoursToEnd
  apply div_pos
  · exact_mod_cast sub_pos_of_lt h
  · norm_num

/-- Claim C5, counterexample: in the v2 hours-based mode, moving the end
date later across the expiry boundary (from 1 day past to 30 days ahead)
strictly increases the weighted time-decay contribution: the expired term
is `0` while the future one is `0.10 * exp(-1) > 0`. -/
theorem timeDecay_not_antitone_across_expiry :
    (defaultWeights.w5 : ℝ) * calculateTimeDecay 0 (-86400000) <
      (defaultWeights.w5 : ℝ) * calculateTimeDecay 0 2592000000 := by
  have h1 : calculateTimeDecay 0 (-86400000) = 0 := by
    unfold calculateTimeDecay
    rw [if_pos (hoursToEnd_nonpos 0 (by norm_num))]
  have h720 : hoursToEnd 0 2592000000 = 720 := by
    unfold hoursToEnd
    norm_num
  have h2 : calculateTimeDecay 0 2592000000 = Real.exp (-1) := by
    unfold calculateTimeDecay
    rw [if_neg (by rw [h720]; norm_num), h720]
    norm_num
  have hw : ((defaultWeights.w5 : ℚ) : ℝ) = 0.10 := by
    norm_num [defaultWeights]
  rw [h1, h2, hw]
  have := Real.exp_pos (-1)
  nlinarith

/-- Claim C5, amended: increasing volume never decreases confidence in
either mode (given the nonnegative configured volume weight in v2);
increasing `daysToEnd` never increases v1's `timeUrgency`; and the v2
time-decay term is non-increasing in the end date among not-yet-ended
items — but not across the expiry boundary, where it jumps from `0` up to
the decay value. -/
theorem score_monotonicity :
    (∀ (now : ℤ) (m : V1Market) (v v' : ℝ), 0 ≤ v → v ≤ v' →
      calculateScore now { m with volume := v } ≤
        calculateScore now { m with volume := v' }) ∧
    (∀ (w : RankingWeights) (now : ℤ) (m : MarketData) (v v' : ℝ),
      0 ≤ w.w2 → v ≤ v' →
      (calculateRanking w now { m with volume24h := v }).confidence ≤
        (calculateRanking w now { m with volume24h := v' }).confidence) ∧
    (∀ now e e' : ℤ, e ≤ e' → timeUrgencyV1 now e' ≤ timeUrgencyV1 now e) ∧
    (∀ now e e' : ℤ, now < e → e ≤ e' →
      calculateTimeDecay now e' ≤ calculateTimeDecay now e) := by
  refine ⟨?_, ?_, ?_, ?_⟩
  · intro now m v v' h0 h
    apply clamp01_mono
    have := normalizedVolume_mono h0 h
    simp only
    linarith
  · intro w now m v v' hw h
    apply clamp_mono
    have hmono := normalizeVolume_mono h
    have hw' : (0 : ℝ) ≤ (w.w2 : ℝ) := by exact_mod_cast hw
    have := mul_le_mul_of_nonneg_left hmono hw'
    simp only
    linarith
  · intro now e e' h
    unfold timeUrgencyV1
    apply Real.exp_le_exp.mpr
    have := daysToEnd_mono now h
    linarith
  · intro now e e' hfut h
    unfold calculateTimeDecay
    have hp := hoursToEnd_pos now hfut
    have hp' : 0 < hoursToEnd now e' := lt_of_lt_of_le hp (hoursToEnd_mono now h)
    rw [if_neg (by linarith), if_neg (by linarith)]
    apply Real.exp_le_exp.mpr
    have := hoursToEnd_mono now h
    linarith

/-- Witness for the amended C5 theorem at concrete inputs. -/
theorem score_monotonicity_witness :
    calculateScore 0 ⟨0, none, 0, none, none⟩ ≤
      calculateScore 0 ⟨1, none, 0, none, none⟩ ∧
    (calculateRanking defaultWeights 0 ⟨0, 0, 0, 0, 0⟩).confidence ≤
      (calculateRanking defaultWeights 0 ⟨0, 1, 0, 0, 0⟩).confidence ∧
    timeUrgencyV1 0 86400000 ≤ timeUrgencyV1 0 0 ∧
    calculateTimeDecay 0 7200000 ≤ calculateTimeDecay 0 3600000 :=
  ⟨score_monotonicity.1 0 ⟨0, none, 0, none, none⟩ 0 1 (by norm_num) (by norm_num),
   score_monotonicity.2.1 defaultWeights 0 ⟨0, 0, 0, 0, 0⟩ 0 1
     (by norm_num [defaultWeights]) (by norm_num),
   score_monotonicity.2.2.1 0 0 86400000 (by norm_num),
   score_monotonicity.2.2.2 0 3600000 7200000 (by norm_num) (by norm_num)⟩

/-- Claim C6, counterexample: the v1 score of one and the same market
(all-zero signals, `endDate = 0`) differs between two evaluation
instants: at `now = 0` (0 days to end) confidence is `0.2`, while 30 days
earlier it is `0.2 * exp(-1) < 0.2` — the score is not a function of the
item's fields alone. -/
theorem calculateScore_depends_on_clock :
    calculateScore (-2592000000) ⟨0, none, 0, none, none⟩ ≠
      calculateScore 0 ⟨0, none, 0, none, none⟩ := by
  have hvol : normalizedVolume 0 = 0 := by
    unfold normalizedVolume
    rw [show ((0 : ℝ) + 1) = 1 by norm_num, Real.logb_one]
    norm_num
  have hvola : volatilityScore none = 0 := by
    unfold volatilityScore
    norm_num [Option.getD]
  have hliq : liquidityScoreV1 none = 0 := rfl
  have hd1 : daysToEnd (-2592000000) 0 = 30 := by
    unfold daysToEnd
    norm_num
  have hd2 : daysToEnd 0 0 = 0 := by
    unfold daysToEnd
    norm_num
  have hu1 : timeUrgencyV1 (-2592000000) 0 = Real.exp (-1) := by
    unfold timeUrgencyV1
    rw [hd1]
    norm_num
  have hu2 : timeUrgencyV1 0 0 = 1 := by
    unfold timeUrgencyV1
    rw [hd2]
    norm_num [Real.exp_zero]
  have he : Real.exp (-1) < 1 := Real.exp_lt_one_iff.mpr (by norm_num)
  have hepos := Real.exp_pos (-1)
  unfold calculateScore clamp01
  simp only [hvol, hvola, hliq, hu1, hu2, Option.getD_none]
  have hL : max 0 (min 1 (0.35 * 0 + 0.25 * 0 + 0.20 * Real.exp (-1) + 0.15 * 0 + 0.05 * 0)) =
      0.20 * Real.exp (-1) := by
    rw [min_eq_right (by nlinarith), max_eq_right (by nlinarith)]
    ring
  have hR : max 0 (min 1 (0.35 * 0 + 0.25 * 0 + 0.20 * 1 + 0.15 * 0 + 0.05 * 0)) =
      (0.20 : ℝ) := by
    rw [min_eq_right (by norm_num), max_eq_right (by norm_num)]
    norm_num
  rw [hL, hR]
  nlinarith

/-- Claim C6, amended: both scorers are deterministic functions of the
item's fields AND the evaluation instant — identical fields and an
identical clock reading yield identical output; the clock reading is a
genuine input (see the counterexample), so the score is not a function of
the item's fields alone. -/
theorem score_deterministic_given_clock :
    (∀ (now : ℤ) (m m' : V1Market), m.volume = m'.volume →
      m.lastChange24h = m'.lastChange24h → m.endDate = m'.endDate →
      m.liquidity = m'.liquidity → m.trendScore = m'.trendScore →
      calculateScore now m = calculateScore now m') ∧
    (∀ (w : RankingWeights) (now : ℤ) (m m' : MarketData),
      m.liquidity = m'.liquidity → m.volume24h = m'.volume24h →
      m.priceChange24 = m'.priceChange24 → m.mentionScore = m'.mentionScore →
      m.endDate = m'.endDate →
      (calculateRanking w now m).confidence = (calculateRanking w now m').confidence ∧
      (calculateRanking w now m).trendScore = (calculateRanking w now m').trendScore) := by
  constructor
  · intro now m m' h1 h2 h3 h4 h5
    cases m
    cases m'
    simp only at h1 h2 h3 h4 h5
    subst h1 h2 h3 h4 h5
    rfl
  · intro w now m m' h1 h2 h3 h4 h5
    cases m
    cases m'
    simp only at h1 h2 h3 h4 h5
    subst h1 h2 h3 h4 h5
    exact ⟨rfl, rfl⟩

/-- Witness for the amended C6 theorem at a concrete market. -/
theorem score_deterministic_given_clock_witness :
    calculateScore 0 ⟨1, some 2, 3, some 4, some 5⟩ =
      calculateScore 0 ⟨1, some 2, 3, some 4, some 5⟩ ∧
    (calculateRanking defaultWeights 0 ⟨1, 2, 3, 4, 5⟩).confidence =
      (calculateRanking defaultWeights 0 ⟨1, 2, 3, 4, 5⟩).confidence :=
  ⟨score_deterministic_given_clock.1 0 ⟨1, some 2, 3, some 4, some 5⟩
      ⟨1, some 2, 3, some 4, some 5⟩ rfl rfl rfl rfl rfl,
   (score_deterministic_given_clock.2 defaultWeights 0 ⟨1, 2, 3, 4, 5⟩
      ⟨1, 2, 3, 4, 5⟩ rfl rfl rfl rfl rfl).1⟩

/-! ## Weight configuration -/

/-- Claim C9, counterexample: the weight set `{0.28,0.22,0.16,0.24,0.09}`
(sum `0.99`) fails `validateWeights`, yet `updateWeights` applies it
anyway: the active weights change to exactly the invalid set.  No
rejection happens at update time. -/
theorem updateWeights_accepts_invalid :
    validateWeights ⟨0.28, 0.22, 0.16, 0.24, 0.09⟩ = false ∧
    updateWeights defaultWeights
        ⟨some 0.28, some 0.22, some 0.16, some 0.24, some 0.09⟩ =
      ⟨0.28, 0.22, 0.16, 0.24, 0.09⟩ ∧
    updateWeights defaultWeights
        ⟨some 0.28, some 0.22, some 0.16, some 0.24, some 0.09⟩ ≠
      defaultWeights := by
  refine ⟨?_, rfl, ?_⟩
  · simp only [validateWeights]
    rw [decide_eq_false_iff_not]
    norm_num
    rw [abs_of_pos (by norm_num)]
    norm_num
  intro h
  have : (0.09 : ℚ) = 0.10 := congrArg RankingWeights.w5 h
  norm_num at this

/-- Claim C9, amended: `updateWeights` applies every update
unconditionally — supplying all five fields replaces the active weights
with exactly the supplied values, valid or not; `validateWeights` is the
predicate `|w1+w2+w3+w4+w5 - 1| < 0.001` but is never invoked on the
update path. -/
theorem updateWeights_unconditional :
    (∀ current w : RankingWeights,
      updateWeights current ⟨some w.w1, some w.w2, some w.w3, some w.w4, some w.w5⟩ = w) ∧
    (∀ w : RankingWeights,
      validateWeights w = true ↔ |w.w1 + w.w2 + w.w3 + w.w4 + w.w5 - 1| < 0.001) := by
  constructor
  · intro current w
    rfl
  · intro w
    unfold validateWeights
    exact decide_eq_true_iff

/-! ## Rebuild failure semantics -/

/-- Claim C8, counterexample: a rebuild over two markets in which only
market `2`'s score persistence fails aborts the whole rebuild with that
error — it does not continue with market `1`, exclude only market `2`,
or report a partial result. -/
theorem rebuildRankings_single_failure_aborts :
    rebuildRankings [(1, 9/10), (2, 4/5)] (fun i => i != 2) = Except.error 2 ∧
    (rebuildRankings [(1, 9/10), (2, 4/5)] (fun i => i != 2)).isOk = false := by
  constructor <;> rfl

/-- Claim C8, amended: a single item's persistence failure is not
isolated: the per-item updates run inside one all-or-nothing transaction
whose error the rebuild rethrows, so the rebuild succeeds exactly when
every item persists; any failing item aborts the whole rebuild (and no
cache write happens). -/
theorem rebuildRankings_all_or_nothing :
    ∀ (scored : List (ℕ × ℚ)) (persistOk : ℕ → Bool),
      (rebuildRankings scored persistOk).isOk =
        scored.all (fun p => persistOk p.1) := by
  intro scored persistOk
  unfold rebuildRankings
  cases hf : scored.find? (fun p => !persistOk p.1) with
  | some p =>
    have hp := List.find?_some hf
    have hmem := List.mem_of_find?_eq_some hf
    simp only [Except.isOk, Except.toBool]
    symm
    rw [List.all_eq_false]
    exact ⟨p, hmem, by simpa using hp⟩
  | none =>
    simp only [Except.isOk, Except.toBool]
    symm
    rw [List.all_eq_true]
    intro p hmem
    have := List.find?_eq_none.mp hf p hmem
    simpa using this

/-! ## Rebuild/read interleaving -/

/-- Claim C1: the rebuild writes the top cache as `DEL` followed by one
`ZADD` per market, so a `getTopMarkets` read interleaved between the
`DEL` and the second `ZADD` observes a partially populated set.  With old
top set `{1}` and new markets `2, 3`, a limit-2 read mid-rebuild returns
`[2]`, which is neither the fully-previous page `[1]` nor the fully-new
page `[2, 3]`. -/
theorem getTopMarkets_observes_partial_rebuild :
    getTopMarkets ⟨[(1, 5)], []⟩ 2 = [1] ∧
    getTopMarkets (applyOps ⟨[(1, 5)], []⟩ (rebuildRedisOps [(2, 9), (3, 8)])) 2
      = [2, 3] ∧
    (rebuildRedisOps [(2, 9), (3, 8)]).take 2 =
      [RedisOp.del RKey.top, RedisOp.zadd RKey.top 2 9] ∧
    getTopMarkets
        (applyOps ⟨[(1, 5)], []⟩ ((rebuildRedisOps [(2, 9), (3, 8)]).take 2)) 2
      = [2] ∧
    ([2] : List ℕ) ≠ [1] ∧ ([2] : List ℕ) ≠ [2, 3] := by
  refine ⟨?_, ?_, rfl, ?_, by decide, by decide⟩ <;> decide

/-! ## Diversity sampler analysis -/

/-- Accepting a market preserves block-wise tag distinctness: the new
market lands either beyond every constrained block, inside a full block
untouched by the append, or at the end of the current partial block,
where the accept condition guarantees its tag is fresh. -/
lemma blocksOk_append {sampled : List DMarket} {m : DMarket} {used : List String}
    (hU : usedMatches sampled used) (hB : blocksOk sampled)
    (hacc : primaryTag m ∉ used ∨ sampled.length < 5) :
    blocksOk (sampled ++ [m]) := by
  intro k hk
  by_cases hbig : sampled.length + 1 ≤ 5 * k
  · rw [List.drop_eq_nil_of_le (by simp; omega)]
    simp
  · have h5k : 5 * k ≤ sampled.length := by omega
    rw [List.drop_append_of_le_length h5k]
    by_cases hfull : 5 * k + 5 ≤ sampled.length
    · rw [List.take_append_of_le_length (by simp; omega)]
      exact hB k hk
    · have hkeq : k = sampled.length / 5 := by omega
      rw [List.take_of_length_le (by simp; omega)]
      rw [List.map_append]
      apply List.Nodup.append
      · have := hB k hk
        rwa [List.take_of_length_le (by simp; omega)] at this
      · exact List.nodup_singleton _
      · intro t ht hts
        simp only [List.map_cons, List.map_nil, List.mem_singleton] at hts
        subst hts
        rcases hacc with hacc | hacc
        · apply hacc
          rw [hU (primaryTag m)]
          unfold curBlock
          rw [← hkeq]
          exact ht
        · omega

/-- Accepting a market keeps the used-tag set in sync with the current
partial block: at a multiple-of-5 boundary both become empty, otherwise
both gain exactly the accepted tag. -/
lemma usedMatches_append {sampled : List DMarket} {m : DMarket} {used : List String}
    (hU : usedMatches sampled used) :
    usedMatches (sampled ++ [m])
      (if (sampled.length + 1) % 5 = 0 then [] else primaryTag m :: used) := by
  by_cases hmod : (sampled.length + 1) % 5 = 0
  · rw [if_pos hmod]
    intro t
    unfold curBlock
    rw [List.drop_eq_nil_of_le (by simp; omega)]
    simp
  · rw [if_neg hmod]
    have hdiv : (sampled.length + 1) / 5 = sampled.length / 5 := by omega
    intro t
    unfold curBlock
    simp only [List.length_append, List.length_cons, List.length_nil, Nat.zero_add]
    rw [hdiv]
    rw [List.drop_append_of_le_length (by omega)]
    rw [List.map_append]
    unfold usedMatches curBlock at hU
    simp only [List.mem_cons, List.mem_append, hU t]
    simp [or_comm]

/-- The sampler walk preserves block-wise tag distinctness. -/
lemma sampleGo_blocksOk :
    ∀ (input sampled : List DMarket) (used : List String),
      usedMatches sampled used → blocksOk sampled →
      blocksOk (sampleGo input sampled used) := by
  intro input
  induction input with
  | nil => intro sampled used _ hB; exact hB
  | cons m rest ih =>
    intro sampled used hU hB
    simp only [sampleGo]
    split
    · next hacc =>
      exact ih _ _ (usedMatches_append hU) (blocksOk_append hU hB hacc)
    · next =>
      exact ih _ _ hU hB

/-- While at most 5 markets are in play the accept condition's
`length < 5` disjunct always fires, so everything is accepted. -/
lemma sampleGo_all_accepted :
    ∀ (input sampled : List DMarket) (used : List String),
      sampled.length + input.length ≤ 5 →
      sampleGo input sampled used = sampled ++ input := by
  intro input
  induction input with
  | nil => intro sampled used _; simp [sampleGo]
  | cons m rest ih =>
    intro sampled used h
    simp only [List.length_cons] at h
    simp only [sampleGo]
    rw [if_pos (Or.inr (by omega))]
    rw [ih (sampled ++ [m]) _ (by simp; omega)]
    simp

/-- Claim C7, counterexample: on the 11-market input whose tags are
`a a a a a b c d e f f` the sampler accepts everything; positions 9 and
10 (both accepted with at least 5 items already accepted) share tag `f`
and lie in a common window of 5 consecutive accepted items — the
sliding-window reading of the diversity constraint fails, because the
used-tag set is cleared after every 5th acceptance. -/
theorem diversity_sliding_window_violated :
    applyDiversitySampling sampleInput11 = sampleInput11 ∧
    tagAt (applyDiversitySampling sampleInput11) 9 = "f" ∧
    tagAt (applyDiversitySampling sampleInput11) 10 = "f" ∧
    ¬ noDupWindow (applyDiversitySampling sampleInput11) := by
  refine ⟨by decide, by decide, by decide, by decide⟩

/-- Claim C7, amended: in the diversity-sampled output, within each
aligned block of 5 consecutive accepted items after the first block no
two items share a primary category (the first block — the items accepted
while fewer than 5 had been accepted — is exempt); windows straddling a
block boundary may repeat a category because the used-tag set is cleared
every 5 acceptances.  When the input has fewer than 5 items, all are
accepted. -/
theorem diversity_block_constraint :
    ∀ markets : List DMarket,
      (∀ k, 1 ≤ k →
        ((((applyDiversitySampling markets).drop (5 * k)).take 5).map
          primaryTag).Nodup) ∧
      (markets.length < 5 → applyDiversitySampling markets = markets) := by
  intro markets
  constructor
  · have h1 : usedMatches [] [] := by
      intro t
      simp [curBlock]
    have h2 : blocksOk [] := by
      intro k hk
      simp
    exact fun k hk => sampleGo_blocksOk markets [] [] h1 h2 k hk
  · intro h
    unfold applyDiversitySampling
    rw [sampleGo_all_accepted markets [] [] (by simp; omega)]
    simp

/-- Witness for the amended C7 theorem: the second block of the concrete
run above has distinct tags, and a 2-element input is returned whole. -/
theorem diversity_block_constraint_witness :
    ((((applyDiversitySampling sampleInput11).drop (5 * 1)).take 5).map
      primaryTag).Nodup ∧
    applyDiversitySampling [⟨0, ["a"]⟩, ⟨1, ["a"]⟩] = [⟨0, ["a"]⟩, ⟨1, ["a"]⟩] :=
  ⟨(diversity_block_constraint sampleInput11).1 1 (by decide),
   (diversity_block_constraint [⟨0, ["a"]⟩, ⟨1, ["a"]⟩]).2 (by decide)⟩

/-! ## Pagination analysis -/

lemma keyLt_trans {x y z : ℤ × ℕ} (h1 : keyLt x y) (h2 : keyLt y z) : keyLt x z := by
  unfold keyLt at *
  rcases h1 with h1 | ⟨h1, h1'⟩ <;> rcases h2 with h2 | ⟨h2, h2'⟩
  · exact Or.inl (lt_trans h1 h2)
  · exact Or.inl (h2 ▸ h1)
  · exact Or.inl (h1 ▸ h2)
  · exact Or.inr ⟨h1.trans h2, lt_trans h1' h2'⟩

lemma keyLt_irrefl (x : ℤ × ℕ) : ¬ keyLt x x := by
  unfold keyLt
  omega

lemma keyLt_asymm {x y : ℤ × ℕ} (h : keyLt x y) : ¬ keyLt y x := by
  intro h'
  exact keyLt_irrefl x (keyLt_trans h h')

lemma keyLt_trichotomy (x y : ℤ × ℕ) : keyLt x y ∨ x = y ∨ keyLt y x := by
  unfold keyLt
  rcases lt_trichotomy x.1 y.1 with h | h | h
  · exact Or.inl (Or.inl h)
  · rcases lt_trichotomy x.2 y.2 with h' | h' | h'
    · exact Or.inl (Or.inr ⟨h, h'⟩)
    · exact Or.inr (Or.inl (Prod.ext h h'))
    · exact Or.inr (Or.inr (Or.inr ⟨h.symm, h'⟩))
  · exact Or.inr (Or.inr (Or.inl h))

instance : IsTotal FeedMarket feedGe := by
  constructor
  intro a b
  unfold feedGe
  rcases keyLt_trichotomy (feedKey a) (feedKey b) with h | h | h
  · exact Or.inr (keyLt_asymm h)
  · exact Or.inl (h ▸ keyLt_irrefl _)
  · exact Or.inl (keyLt_asymm h)

instance : IsTrans FeedMarket feedGe := by
  constructor
  intro a b c hab hbc
  unfold feedGe at *
  intro hac
  rcases keyLt_trichotomy (feedKey b) (feedKey c) with h | h | h
  · exact hbc h
  · apply hab
    rwa [h]
  · exact hab (keyLt_trans hac h)

lemma feedGt_asymm {a b : FeedMarket} (h : feedGt a b) : ¬ feedGt b a :=
  fun h' => keyLt_asymm h h'

/-- A weakly sorted list with pairwise-distinct ids is strictly sorted. -/
lemma strict_of_sorted_nodup {l : List FeedMarket}
    (hs : List.Sorted feedGe l) (hn : (l.map FeedMarket.id).Nodup) :
    l.Pairwise feedGt := by
  have hne : l.Pairwise (fun a b => a.id ≠ b.id) := by
    rw [List.Nodup, List.pairwise_map] at hn
    exact hn
  have hand := List.Pairwise.and hs hne
  apply hand.imp
  intro a b hab
  obtain ⟨hge, hid⟩ := hab
  rcases keyLt_trichotomy (feedKey a) (feedKey b) with h | h | h
  · exact absurd h hge
  · exact absurd (congrArg Prod.snd h) hid
  · exact h

/-- Two strictly sorted lists that are permutations of each other are
equal. -/
lemma eq_of_perm_of_strict :
    ∀ (l₁ l₂ : List FeedMarket), l₁.Perm l₂ →
      l₁.Pairwise feedGt → l₂.Pairwise feedGt → l₁ = l₂ := by
  intro l₁
  induction l₁ with
  | nil =>
    intro l₂ hp _ _
    exact hp.nil_eq
  | cons a t₁ ih =>
    intro l₂ hp h₁ h₂
    cases l₂ with
    | nil => exact absurd hp.length_eq (by simp)
    | cons b t₂ =>
      by_cases hab : a = b
      · subst hab
        rw [ih t₂ (hp.cons_inv) (List.pairwise_cons.mp h₁).2 (List.pairwise_cons.mp h₂).2]
      · exfalso
        have hbmem : b ∈ a :: t₁ := hp.symm.subset (by simp)
        have hamem : a ∈ b :: t₂ := hp.subset (by simp)
        have hb : b ∈ t₁ := by
          rcases List.mem_cons.mp hbmem with h | h
          · exact absurd h.symm hab
          · exact h
        have ha : a ∈ t₂ := by
          rcases List.mem_cons.mp hamem with h | h
          · exact absurd h hab
          · exact h
        have h1 := (List.pairwise_cons.mp h₁).1 b hb
        have h2 := (List.pairwise_cons.mp h₂).1 a ha
        exact feedGt_asymm h1 h2

/-- The `sortFeedDesc` output is weakly sorted. -/
lemma sorted_sortFeedDesc (l : List FeedMarket) :
    List.Sorted feedGe (sortFeedDesc l) :=
  List.sorted_insertionSort feedGe l

/-- The `sortFeedDesc` permutes its input. -/
lemma perm_sortFeedDesc (l : List FeedMarket) : (sortFeedDesc l).Perm l :=
  List.perm_insertionSort feedGe l

/-- Ids remain duplicate-free through `sortFeedDesc`. -/
lemma nodup_ids_sortFeedDesc {l : List FeedMarket}
    (hn : (l.map FeedMarket.id).Nodup) :
    ((sortFeedDesc l).map FeedMarket.id).Nodup :=
  (((perm_sortFeedDesc l).map FeedMarket.id).nodup_iff).mpr hn

/-- Ids remain duplicate-free through `List.filter`. -/
lemma nodup_ids_filter (p : FeedMarket → Bool) {l : List FeedMarket}
    (hn : (l.map FeedMarket.id).Nodup) :
    ((l.filter p).map FeedMarket.id).Nodup :=
  hn.sublist ((List.filter_sublist l).map FeedMarket.id)

/-- Sorting commutes with filtering when ids are duplicate-free. -/
lemma sort_filter_comm (p : FeedMarket → Bool) (l : List FeedMarket)
    (hn : (l.map FeedMarket.id).Nodup) :
    sortFeedDesc (l.filter p) = (sortFeedDesc l).filter p := by
  apply eq_of_perm_of_strict
  · exact (perm_sortFeedDesc (l.filter p)).trans
      ((perm_sortFeedDesc l).filter p).symm
  · exact strict_of_sorted_nodup (sorted_sortFeedDesc _)
      (nodup_ids_sortFeedDesc (nodup_ids_filter p hn))
  · have hsorted : List.Sorted feedGe ((sortFeedDesc l).filter p) :=
      (sorted_sortFeedDesc l).sublist (List.filter_sublist _)
    exact strict_of_sorted_nodup hsorted
      (nodup_ids_filter p (nodup_ids_sortFeedDesc hn))

/-- With no cursor every row matches. -/
lemma filter_cursor_none (l : List FeedMarket) :
    l.filter (matchesCursor none) = l :=
  List.filter_eq_self.mpr fun _ _ => rfl

/-- On a strictly descending list, filtering by the cursor of an element
keeps exactly the suffix after that element. -/
lemma filter_cursor_suffix {l : List FeedMarket} (hstrict : l.Pairwise feedGt)
    (l₁ : List FeedMarket) (x : FeedMarket) (l₂ : List FeedMarket)
    (hl : l = l₁ ++ x :: l₂) :
    l.filter (matchesCursor (some (feedKey x))) = l₂ := by
  subst hl
  rw [List.filter_append]
  have hsplit := List.pairwise_append.mp hstrict
  have hcons := List.pairwise_cons.mp hsplit.2.1
  have h1 : l₁.filter (matchesCursor (some (feedKey x))) = [] := by
    rw [List.filter_eq_nil_iff]
    intro a ha
    have hgt : feedGt a x := hsplit.2.2 a ha x (List.mem_cons_self x l₂)
    simp only [matchesCursor, decide_eq_true_eq]
    exact keyLt_asymm hgt
  have h2 : matchesCursor (some (feedKey x)) x = false := by
    simp only [matchesCursor, decide_eq_false_iff_not]
    exact keyLt_irrefl _
  have h3 : l₂.filter (matchesCursor (some (feedKey x))) = l₂ := by
    rw [List.filter_eq_self]
    intro a ha
    simp only [matchesCursor, decide_eq_true_eq]
    exact hcons.1 a ha
  rw [h1, List.nil_append, List.filter_cons_of_neg (by simp [h2]), h3]

/-- The combined eligibility-and-cursor filter factors as cursor after
eligibility. -/
lemma filter_elig_cursor (snapshot : List FeedMarket) (now : ℤ)
    (tags : Option (List String)) (cursor : Option (ℤ × ℕ)) :
    snapshot.filter (fun m => eligibleFilter now tags m && matchesCursor cursor m) =
      (snapshot.filter (eligibleFilter now tags)).filter (matchesCursor cursor) := by
  rw [List.filter_filter]
  congr 1
  funext m
  exact Bool.and_comm _ _

/-- One-page characterization: when the remaining suffix fits in the
requested limit, the page returns it whole with no further cursor. -/
lemma getNextMarkets_last_page {snapshot : List FeedMarket} {now : ℤ}
    {cursor : Option (ℤ × ℕ)} {limit : ℕ} {post : List FeedMarket}
    (hfil : sortFeedDesc (snapshot.filter
        (fun m => eligibleFilter now none m && matchesCursor cursor m)) = post)
    (hle : post.length ≤ limit) :
    getNextMarkets snapshot now none cursor limit = ⟨post, none, false⟩ := by
  simp only [getNextMarkets]
  rw [hfil]
  have htake : post.take (limit + 1) = post :=
    List.take_of_length_le (by omega)
  rw [htake]
  have hdec : decide (limit < post.length) = false :=
    decide_eq_false (by omega)
  rw [hdec]
  simp

/-- One-page characterization: when more rows remain than the limit, the
page returns the first `limit` rows of the suffix, reports `hasMore`, and
issues the key of the last returned row as the cursor. -/
lemma getNextMarkets_more_page {snapshot : List FeedMarket} {now : ℤ}
    {cursor : Option (ℤ × ℕ)} {limit : ℕ} {post : List FeedMarket}
    (hfil : sortFeedDesc (snapshot.filter
        (fun m => eligibleFilter now none m && matchesCursor cursor m)) = post)
    (hlt : limit < post.length) (hne : post.take limit ≠ []) :
    getNextMarkets snapshot now none cursor limit =
      ⟨post.take limit, some (feedKey ((post.take limit).getLast hne)), true⟩ := by
  simp only [getNextMarkets]
  rw [hfil]
  have hlen : (post.take (limit + 1)).length = limit + 1 := by
    rw [List.length_take]
    omega
  have hdec : decide (limit < (post.take (limit + 1)).length) = true :=
    decide_eq_true (by omega)
  rw [hdec]
  have htt : (post.take (limit + 1)).take limit = post.take limit := by
    rw [List.take_take]
    congr 1
    omega
  simp only [Bool.true_and, if_true, htt]
  rw [List.getLast?_eq_getLast_of_ne_nil hne]
  simp [List.isEmpty_iff, hne]

/-- Driving `getNextMarkets` from any cursor that selects a suffix of the
sorted eligible list returns exactly that suffix. -/
lemma collectPages_eq_suffix (snapshot : List FeedMarket) (now : ℤ)
    (limits : ℕ → ℕ) (hid : (snapshot.map FeedMarket.id).Nodup)
    (hlim : ∀ k, 1 ≤ limits k) :
    ∀ (fuel : ℕ) (post l₁ : List FeedMarket) (cursor : Option (ℤ × ℕ)) (k : ℕ),
      sortFeedDesc (snapshot.filter (eligibleFilter now none)) = l₁ ++ post →
      (sortFeedDesc (snapshot.filter (eligibleFilter now none))).filter
          (matchesCursor cursor) = post →
      post.length < fuel →
      collectPages snapshot now none limits fuel cursor k = post := by
  intro fuel
  induction fuel with
  | zero => intro post l₁ cursor k _ _ h; omega
  | succ f ih =>
    intro post l₁ cursor k hsplit hfilter hlen
    have hfil : sortFeedDesc (snapshot.filter
        (fun m => eligibleFilter now none m && matchesCursor cursor m)) = post := by
      rw [filter_elig_cursor, sort_filter_comm _ _ (nodup_ids_filter _ hid), hfilter]
    by_cases hmore : limits k < post.length
    · have hpos : 1 ≤ limits k := hlim k
      have hne : post.take (limits k) ≠ [] := by
        intro h
        have hlt : (post.take (limits k)).length = 0 := by rw [h]; rfl
        rw [List.length_take] at hlt
        omega
      have hpage := getNextMarkets_more_page hfil hmore hne
      set x := (post.take (limits k)).getLast hne with hx
      have hxl : (post.take (limits k)).dropLast ++ [x] = post.take (limits k) :=
        List.dropLast_append_getLast hne
      have h1 : (post.take (limits k)).dropLast ++ (x :: post.drop (limits k)) = post := by
        rw [show x :: post.drop (limits k) = [x] ++ post.drop (limits k) from rfl,
          ← List.append_assoc, hxl, List.take_append_drop]
      have hsplit' : sortFeedDesc (snapshot.filter (eligibleFilter now none)) =
          (l₁ ++ (post.take (limits k)).dropLast) ++ (x :: post.drop (limits k)) := by
        rw [List.append_assoc, h1]
        exact hsplit
      have hsplit2 : sortFeedDesc (snapshot.filter (eligibleFilter now none)) =
          (l₁ ++ post.take (limits k)) ++ post.drop (limits k) := by
        rw [List.append_assoc, List.take_append_drop]
        exact hsplit
      have hstrict : (sortFeedDesc (snapshot.filter
          (eligibleFilter now none))).Pairwise feedGt :=
        strict_of_sorted_nodup (sorted_sortFeedDesc _)
          (nodup_ids_sortFeedDesc (nodup_ids_filter _ hid))
      have hfilter' : (sortFeedDesc (snapshot.filter
          (eligibleFilter now none))).filter (matchesCursor (some (feedKey x))) =
          post.drop (limits k) :=
        filter_cursor_suffix hstrict _ x _ hsplit'
      have hlen' : (post.drop (limits k)).length < f := by
        rw [List.length_drop]
        omega
      have hrec := ih (post.drop (limits k)) (l₁ ++ post.take (limits k))
        (some (feedKey x)) (k + 1) hsplit2 hfilter' hlen'
      show collectPages snapshot now none limits (f + 1) cursor k = post
      simp only [collectPages, hpage]
      rw [hrec]
      exact List.take_append_drop _ post
    · have hle : post.length ≤ limits k := by omega
      have hpage := getNextMarkets_last_page hfil hle
      simp only [collectPages, hpage]

/-- Claim C2: on a fixed snapshot with duplicate-free ids, repeatedly
calling `getNextMarkets` with any per-call limit in `1..20`, starting
from no cursor and following the returned `nextCursor` until `hasMore`
is false, enumerates exactly the eligible set (future `endDate`) in
`(updatedAt, id)`-descending order, with no duplicates and no
omissions. -/
theorem getNextMarkets_enumerates (snapshot : List FeedMarket) (now : ℤ)
    (limits : ℕ → ℕ) (hid : (snapshot.map FeedMarket.id).Nodup)
    (hlim : ∀ k, 1 ≤ limits k ∧ limits k ≤ 20) :
    collectPages snapshot now none limits (snapshot.length + 1) none 0 =
      sortFeedDesc (snapshot.filter (eligibleFilter now none)) ∧
    (collectPages snapshot now none limits (snapshot.length + 1) none 0).Nodup ∧
    (collectPages snapshot now none limits (snapshot.length + 1) none 0).Perm
      (snapshot.filter (eligibleFilter now none)) := by
  have hlen : (sortFeedDesc (snapshot.filter (eligibleFilter now none))).length <
      snapshot.length + 1 := by
    have h1 := (perm_sortFeedDesc (snapshot.filter (eligibleFilter now none))).length_eq
    have h2 := List.length_filter_le (eligibleFilter now none) snapshot
    omega
  have hmain := collectPages_eq_suffix snapshot now limits hid (fun k => (hlim k).1)
    (snapshot.length + 1) (sortFeedDesc (snapshot.filter (eligibleFilter now none)))
    [] none 0 (by simp) (filter_cursor_none _) hlen
  refine ⟨hmain, ?_, ?_⟩
  · rw [hmain]
    exact List.Nodup.of_map FeedMarket.id
      (nodup_ids_sortFeedDesc (nodup_ids_filter _ hid))
  · rw [hmain]
    exact perm_sortFeedDesc _

/-- Witness for the C2 theorem: a 4-market snapshot (one expired) paged
with limit 2. -/
theorem getNextMarkets_enumerates_witness :
    collectPages
        [⟨1, 50, 5, []⟩, ⟨2, 50, 5, []⟩, ⟨3, 40, 5, []⟩, ⟨4, 30, -5, []⟩] 0 none
        (fun _ => 2) 5 none 0 =
      sortFeedDesc (List.filter (eligibleFilter 0 none)
        [⟨1, 50, 5, []⟩, ⟨2, 50, 5, []⟩, ⟨3, 40, 5, []⟩, ⟨4, 30, -5, []⟩]) ∧
    (collectPages
        [⟨1, 50, 5, []⟩, ⟨2, 50, 5, []⟩, ⟨3, 40, 5, []⟩, ⟨4, 30, -5, []⟩] 0 none
        (fun _ => 2) 5 none 0).Nodup ∧
    (collectPages
        [⟨1, 50, 5, []⟩, ⟨2, 50, 5, []⟩, ⟨3, 40, 5, []⟩, ⟨4, 30, -5, []⟩] 0 none
        (fun _ => 2) 5 none 0).Perm
      (List.filter (eligibleFilter 0 none)
        [⟨1, 50, 5, []⟩, ⟨2, 50, 5, []⟩, ⟨3, 40, 5, []⟩, ⟨4, 30, -5, []⟩]) :=
  getNextMarkets_enumerates
    [⟨1, 50, 5, []⟩, ⟨2, 50, 5, []⟩, ⟨3, 40, 5, []⟩, ⟨4, 30, -5, []⟩] 0
    (fun _ => 2) (by decide) (fun k => ⟨by norm_num, by norm_num⟩)
